import Mathlib

/-!
Verification of the smartcharge.dev charge-planning engine (`src/server/logic.ts`)
against its natural-language specification.

Times are epoch milliseconds; JavaScript numbers are modelled as exact
rationals (`ℚ`), battery levels as integers.  The helpers `nstart`/`nstop`
of `cleanupPlan` map a nullable timestamp to the extended number line:
`(n && n.getTime()) || -Infinity` yields `-Infinity` both for `null` and for
a timestamp of exactly `0` (epoch), since `0` is falsy in JavaScript; the
model reproduces this.
-/

namespace Smartcharge

/-- Rational addition through `mkRat`, used so that concrete plans evaluate
inside the kernel; equal to `+` by `qadd_eq`. -/
def qadd (a b : ℚ) : ℚ := mkRat (a.num * b.den + b.num * a.den) (a.den * b.den)

/-- Rational subtraction through `mkRat`; equal to `-` by `qsub_eq`. -/
def qsub (a b : ℚ) : ℚ := mkRat (a.num * b.den - b.num * a.den) (a.den * b.den)

/-- Rational multiplication through `mkRat`; equal to `*` by `qmul_eq`. -/
def qmul (a b : ℚ) : ℚ := mkRat (a.num * b.num) (a.den * b.den)

/-- Rational division through `mkRat` (zero denominator yields `0`, matching
`ℚ`); equal to `/` by `qdiv_eq`. -/
def qdiv (a b : ℚ) : ℚ :=
  if b.num < 0 then mkRat (-(a.num * b.den)) (a.den * b.num.natAbs)
  else mkRat (a.num * b.den) (a.den * b.num.natAbs)

/-- JS `Math.min` on numbers. -/
def jmin (a b : ℚ) : ℚ := if a ≤ b then a else b

/-- JS `Math.max` on numbers. -/
def jmax (a b : ℚ) : ℚ := if a ≤ b then b else a

/-- Floor of a rational, computed by flooring division on the numerator. -/
def jfloor (q : ℚ) : Int := q.num.fdiv q.den

/-- JS `Math.round`: floor of `x + 1/2` (ties round up, also for negatives). -/
def jround (q : ℚ) : Int := jfloor (qadd q (mkRat 1 2))

theorem qadd_eq (a b : ℚ) : qadd a b = a + b := by
  have ha : (a.den : ℚ) ≠ 0 := Nat.cast_ne_zero.mpr a.den_ne_zero
  have hb : (b.den : ℚ) ≠ 0 := Nat.cast_ne_zero.mpr b.den_ne_zero
  rw [qadd, Rat.mkRat_eq_div]
  conv_rhs => rw [← Rat.num_div_den a, ← Rat.num_div_den b]
  push_cast
  field_simp

theorem qsub_eq (a b : ℚ) : qsub a b = a - b := by
  have ha : (a.den : ℚ) ≠ 0 := Nat.cast_ne_zero.mpr a.den_ne_zero
  have hb : (b.den : ℚ) ≠ 0 := Nat.cast_ne_zero.mpr b.den_ne_zero
  rw [qsub, Rat.mkRat_eq_div]
  conv_rhs => rw [← Rat.num_div_den a, ← Rat.num_div_den b]
  push_cast
  field_simp
  ring

theorem qmul_eq (a b : ℚ) : qmul a b = a * b := by
  have ha : (a.den : ℚ) ≠ 0 := Nat.cast_ne_zero.mpr a.den_ne_zero
  have hb : (b.den : ℚ) ≠ 0 := Nat.cast_ne_zero.mpr b.den_ne_zero
  rw [qmul, Rat.mkRat_eq_div]
  conv_rhs => rw [← Rat.num_div_den a, ← Rat.num_div_den b]
  push_cast
  field_simp

theorem qdiv_eq (a b : ℚ) : qdiv a b = a / b := by
  have ha : (a.den : ℚ) ≠ 0 := Nat.cast_ne_zero.mpr a.den_ne_zero
  have hb : (b.den : ℚ) ≠ 0 := Nat.cast_ne_zero.mpr b.den_ne_zero
  rcases lt_trichotomy b.num 0 with h | h | h
  · have hbn : (b.num : ℚ) ≠ 0 := Int.cast_ne_zero.mpr h.ne
    have habs : ((b.num.natAbs : ℚ)) = -(b.num : ℚ) := by
      have h2 : ((b.num.natAbs : ℤ)) = -b.num := Int.ofNat_natAbs_of_nonpos h.le
      rw [← Int.cast_natCast (R := ℚ), h2, Int.cast_neg]
    rw [qdiv, if_pos h, Rat.mkRat_eq_div]
    conv_rhs => rw [← Rat.num_div_den a, ← Rat.num_div_den b]
    push_cast
    rw [habs]
    field_simp
  · have hb0 : b = 0 := Rat.num_eq_zero.mp h
    rw [qdiv, if_neg (by rw [h]; exact lt_irrefl 0), Rat.mkRat_eq_div, hb0]
    simp [h]
  · have hbn : (b.num : ℚ) ≠ 0 := Int.cast_ne_zero.mpr h.ne'
    have habs : ((b.num.natAbs : ℚ)) = (b.num : ℚ) := by
      have h2 : ((b.num.natAbs : ℤ)) = b.num := Int.natAbs_of_nonneg h.le
      rw [← Int.cast_natCast (R := ℚ), h2]
    rw [qdiv, if_neg (not_lt.mpr h.le), Rat.mkRat_eq_div]
    conv_rhs => rw [← Rat.num_div_den a, ← Rat.num_div_den b]
    push_cast
    rw [habs]
    field_simp

theorem jmin_eq (a b : ℚ) : jmin a b = min a b := by
  rw [jmin, min_def]

theorem jmax_eq (a b : ℚ) : jmax a b = max a b := by
  rw [jmax, max_def]

/-- The extended JS number line as used by the plan reconciler:
`bot` models `-Infinity`, `top` models `+Infinity`. -/
inductive XT
  | bot
  | fin (q : ℚ)
  | top
deriving DecidableEq

/-- Less-or-equal on the extended number line. -/
def XT.le : XT → XT → Prop
  | .bot, _ => True
  | .fin _, .top => True
  | .fin a, .fin b => a ≤ b
  | .fin _, .bot => False
  | .top, .top => True
  | .top, .fin _ => False
  | .top, .bot => False

instance : ∀ a b : XT, Decidable (XT.le a b)
  | .bot, .bot => .isTrue trivial
  | .bot, .fin _ => .isTrue trivial
  | .bot, .top => .isTrue trivial
  | .fin _, .top => .isTrue trivial
  | .fin a, .fin b => inferInstanceAs (Decidable (a ≤ b))
  | .fin _, .bot => .isFalse id
  | .top, .top => .isTrue trivial
  | .top, .fin _ => .isFalse id
  | .top, .bot => .isFalse id

/-- Strict comparison, defined from `le` as on a total order. -/
def XT.lt (a b : XT) : Prop := ¬ XT.le b a

instance (a b : XT) : Decidable (XT.lt a b) := inferInstanceAs (Decidable ¬ _)

theorem XT.le_refl (a : XT) : XT.le a a := by
  cases a <;> simp [XT.le]

theorem XT.le_trans {a b c : XT} (h1 : XT.le a b) (h2 : XT.le b c) : XT.le a c := by
  cases a <;> cases b <;> cases c <;> simp_all [XT.le] <;> exact h1.trans h2

theorem XT.le_total (a b : XT) : XT.le a b ∨ XT.le b a := by
  cases a <;> cases b <;> simp [XT.le] <;> exact LinearOrder.le_total _ _

theorem XT.le_of_lt {a b : XT} (h : XT.lt a b) : XT.le a b :=
  (XT.le_total a b).resolve_right h

theorem XT.le_antisymm {a b : XT} (h1 : XT.le a b) (h2 : XT.le b a) : a = b := by
  cases a <;> cases b <;> simp_all [XT.le] <;> exact h1.antisymm h2

/-- The six charge-plan segment types of the GraphQL `ChargeType` enum. -/
inductive ChargeType
  | calibrate
  | minimum
  | trip
  | routine
  | prefered
  | fill
deriving DecidableEq

/-- `chargePrio` table of `cleanupPlan`. -/
def chargePrio : ChargeType → Nat
  | .calibrate => 0
  | .minimum => 1
  | .trip => 2
  | .routine => 3
  | .prefered => 4
  | .fill => 5

/-- A charge-plan segment (GraphQL `ChargePlan`): nullable start/stop time in
epoch milliseconds, target battery level, segment type, free-form comment. -/
structure ChargePlan where
  chargeStart : Option ℚ
  chargeStop : Option ℚ
  level : Int
  chargeType : ChargeType
  comment : String
deriving DecidableEq

/-- `nstart(n) = (n && n.getTime()) || -Infinity`: `null` and the falsy
timestamp `0` both become `-Infinity`. -/
def nstart : Option ℚ → XT
  | none => .bot
  | some t => if t = 0 then .bot else .fin t

/-- `nstop(n) = (n && n.getTime()) || Infinity`: `null` and the falsy
timestamp `0` both become `+Infinity`. -/
def nstop : Option ℚ → XT
  | none => .top
  | some t => if t = 0 then .top else .fin t

/-- The sort comparator of `cleanupPlan` as a strict order: start ascending,
then stop descending, then `chargePrio` ascending.  A `NaN` difference of two
like-signed infinities is falsy in JS and falls through to the next key,
which matches comparing the extended values for equality. -/
def jslt (a b : ChargePlan) : Prop :=
  XT.lt (nstart a.chargeStart) (nstart b.chargeStart) ∨
    (nstart a.chargeStart = nstart b.chargeStart ∧
      (XT.lt (nstop b.chargeStop) (nstop a.chargeStop) ∨
        (nstop a.chargeStop = nstop b.chargeStop ∧
          chargePrio a.chargeType < chargePrio b.chargeType)))

instance (a b : ChargePlan) : Decidable (jslt a b) :=
  inferInstanceAs (Decidable (_ ∨ _))

/-- Stable insertion: `x` is placed before the first element it does not
strictly follow, matching the stable `Array.prototype.sort`. -/
def insertSeg (x : ChargePlan) : List ChargePlan → List ChargePlan
  | [] => [x]
  | y :: ys => if jslt y x then y :: insertSeg x ys else x :: y :: ys

/-- The stable sort at the top of `cleanupPlan`. -/
def sortPlan : List ChargePlan → List ChargePlan
  | [] => []
  | x :: xs => insertSeg x (sortPlan xs)

/-- The merged segment of the consolidate pass: the stop is extended when the
next segment reaches further, the level is the maximum of both. -/
def mergeSeg (a b : ChargePlan) : ChargePlan :=
  { a with
    chargeStop :=
      if XT.lt (nstop a.chargeStop) (nstop b.chargeStop) then b.chargeStop
      else a.chargeStop,
    level := max a.level b.level }

/-- The `consolidate` loop of `cleanupPlan`, walking adjacent pairs `(a, b)`:
merge when the types agree or `b` ends no later than `a` (staying on the
merged segment), otherwise push `b` forward when `a.level >= b.level`, else
cut `a` short at `b`'s start. -/
def consolidateGo (a : ChargePlan) : List ChargePlan → List ChargePlan
  | [] => [a]
  | b :: rest =>
    if XT.le (nstart b.chargeStart) (nstop a.chargeStop) then
      if a.chargeType = b.chargeType ∨ XT.le (nstop b.chargeStop) (nstop a.chargeStop) then
        consolidateGo (mergeSeg a b) rest
      else if b.level ≤ a.level then
        a :: consolidateGo { b with chargeStart := a.chargeStop } rest
      else
        { a with chargeStop := b.chargeStart } :: consolidateGo b rest
    else
      a :: consolidateGo b rest

def consolidate : List ChargePlan → List ChargePlan
  | [] => []
  | a :: rest => consolidateGo a rest

/-- One pair of the shift pass: `shift = min(nextStart - thisStop,
thisStart - thisStop + 3600e3)` is only positive when start, stop and next
start are all finite on the extended line; in every other case the JS
arithmetic yields `-Infinity` or `NaN` and the guard fails, leaving the pair
untouched (`none`). -/
def shiftPair (a b : ChargePlan) : Option ChargePlan :=
  match nstart a.chargeStart, nstop a.chargeStop, nstart b.chargeStart with
  | XT.fin s, XT.fin p, XT.fin u =>
    let shift := jmin (qsub u p) (qadd (qsub s p) 3600000)
    if 0 < shift ∧ u ≤ qadd p shift then
      some { a with chargeStop := b.chargeStart, chargeStart := some (qadd s shift) }
    else none
  | _, _, _ => none

/-- The shift pass of `cleanupPlan`: walk adjacent pairs, replacing the left
segment whenever `shiftPair` applies and recording whether anything moved. -/
def shiftWalk (a : ChargePlan) : List ChargePlan → List ChargePlan × Bool
  | [] => ([a], false)
  | b :: rest =>
    let r := shiftWalk b rest
    match shiftPair a b with
    | some a2 => (a2 :: r.1, true)
    | none => (a :: r.1, r.2)

/-- The shift pass over a whole plan. -/
def shiftRun : List ChargePlan → List ChargePlan × Bool
  | [] => ([], false)
  | a :: rest => shiftWalk a rest

/-- `Logic.cleanupPlan`: stable sort, consolidate, shift, and a second
consolidate pass if anything was shifted. -/
def cleanupPlan (plan : List ChargePlan) : List ChargePlan :=
  let r := shiftRun (consolidate (sortPlan plan))
  if r.2 then consolidate r.1 else r.1

/-- A kernel-computable decision procedure for `List.Chain'`. -/
def decideChain' {α : Type} (R : α → α → Prop) [DecidableRel R] :
    (l : List α) → Decidable (List.Chain' R l)
  | [] => .isTrue List.chain'_nil
  | [a] => .isTrue (List.chain'_singleton a)
  | a :: b :: l =>
    have : Decidable (List.Chain' R (b :: l)) := decideChain' R (b :: l)
    decidable_of_decidable_of_iff (List.chain'_cons).symm

/-- Claimed invariant, first half: segments ordered by `chargeStart`
ascending (null treated as `-Infinity`). -/
def planOrderedByStart : List ChargePlan → Prop :=
  List.Chain' fun a b => XT.le (nstart a.chargeStart) (nstart b.chargeStart)

/-- One adjacent pair does not overlap: the left segment ends no later than
the right one starts (null stop treated as `+Infinity`, null start as
`-Infinity`). -/
def pairOk (a b : ChargePlan) : Prop :=
  XT.le (nstop a.chargeStop) (nstart b.chargeStart)

/-- Claimed invariant, second half: no two adjacent segments overlap. -/
def planNonoverlap : List ChargePlan → Prop := List.Chain' pairOk

instance (a b : ChargePlan) : Decidable (pairOk a b) :=
  inferInstanceAs (Decidable (XT.le _ _))

instance : DecidablePred planOrderedByStart := fun l => decideChain' _ l

instance : DecidablePred planNonoverlap := fun l => decideChain' _ l

theorem XT.le_top (a : XT) : XT.le a .top := by
  cases a <;> trivial

theorem XT.le_bot {a : XT} (h : XT.le a .bot) : a = .bot := by
  cases a <;> simp_all [XT.le]

theorem nstart_some {t : ℚ} (h : t ≠ 0) : nstart (some t) = .fin t := by
  simp [nstart, h]

theorem nstop_some {t : ℚ} (h : t ≠ 0) : nstop (some t) = .fin t := by
  simp [nstop, h]

theorem nstart_ne_bot {o : Option ℚ} (h : nstart o ≠ .bot) :
    ∃ t, o = some t ∧ t ≠ 0 ∧ nstart o = .fin t := by
  cases o with
  | none => simp [nstart] at h
  | some t =>
    by_cases ht : t = 0
    · simp [nstart, ht] at h
    · exact ⟨t, rfl, ht, by simp [nstart, ht]⟩

theorem nstop_ne_top {o : Option ℚ} (h : nstop o ≠ .top) :
    ∃ t, o = some t ∧ t ≠ 0 ∧ nstop o = .fin t := by
  cases o with
  | none => simp [nstop] at h
  | some t =>
    by_cases ht : t = 0
    · simp [nstop, ht] at h
    · exact ⟨t, rfl, ht, by simp [nstop, ht]⟩

theorem nstart_fin {o : Option ℚ} {t : ℚ} (h : nstart o = .fin t) :
    o = some t ∧ t ≠ 0 := by
  cases o with
  | none => simp [nstart] at h
  | some u =>
    by_cases hu : u = 0
    · simp [nstart, hu] at h
    · simp only [nstart, if_neg hu, XT.fin.injEq] at h
      exact ⟨by rw [h], h ▸ hu⟩

theorem nstop_fin {o : Option ℚ} {t : ℚ} (h : nstop o = .fin t) :
    o = some t ∧ t ≠ 0 := by
  cases o with
  | none => simp [nstop] at h
  | some u =>
    by_cases hu : u = 0
    · simp [nstop, hu] at h
    · simp only [nstop, if_neg hu, XT.fin.injEq] at h
      exact ⟨by rw [h], h ▸ hu⟩

/-- A nullable timestamp that is positive when present. -/
def posOpt : Option ℚ → Prop
  | none => True
  | some t => 0 < t

instance : ∀ o : Option ℚ, Decidable (posOpt o)
  | none => .isTrue trivial
  | some t => inferInstanceAs (Decidable (0 < t))

/-- All explicit timestamps of a segment are positive, as is the case for
every plan the planner builds from real epoch-millisecond clocks. -/
def SegPos (s : ChargePlan) : Prop :=
  posOpt s.chargeStart ∧ posOpt s.chargeStop

instance (s : ChargePlan) : Decidable (SegPos s) :=
  inferInstanceAs (Decidable (_ ∧ _))

theorem SegPos.start_pos {s : ChargePlan} {t : ℚ} (h : SegPos s)
    (he : s.chargeStart = some t) : 0 < t := by
  have h1 := h.1
  rw [he] at h1
  exact h1

theorem SegPos.stop_pos {s : ChargePlan} {t : ℚ} (h : SegPos s)
    (he : s.chargeStop = some t) : 0 < t := by
  have h2 := h.2
  rw [he] at h2
  exact h2

/-- `a` need not be sorted strictly after `b`: the non-strict companion of
the comparator, holding between adjacent elements of the sorted plan. -/
def sortRle (a b : ChargePlan) : Prop := ¬ jslt b a

/-- Adjacent-pair invariant: a segment with `-Infinity` start can only follow
another `-Infinity` start whose stop reaches at least as far. -/
def botChain (a b : ChargePlan) : Prop :=
  nstart b.chargeStart = .bot →
    nstart a.chargeStart = .bot ∧
      XT.le (nstop b.chargeStop) (nstop a.chargeStop)

theorem jslt_asymm {a b : ChargePlan} (h : jslt a b) : ¬ jslt b a := by
  intro h'
  rcases h with h | ⟨he, h⟩
  · rcases h' with h' | ⟨he', _⟩
    · exact (XT.le_total _ _).elim h' h
    · exact h (he' ▸ XT.le_refl _)
  · rcases h' with h' | ⟨_, h'⟩
    · exact h' (he ▸ XT.le_refl _)
    · rcases h with h | ⟨he2, h⟩
      · rcases h' with h' | ⟨he2', _⟩
        · exact (XT.le_total _ _).elim h h'
        · exact h (he2' ▸ XT.le_refl _)
      · rcases h' with h' | ⟨_, h'⟩
        · exact h' (he2 ▸ XT.le_refl _)
        · omega

theorem mem_insertSeg {x s : ChargePlan} {l : List ChargePlan} :
    s ∈ insertSeg x l ↔ s = x ∨ s ∈ l := by
  induction l with
  | nil => simp [insertSeg]
  | cons y ys ih =>
    by_cases h : jslt y x
    · rw [insertSeg, if_pos h]
      simp only [List.mem_cons, ih]
      tauto
    · rw [insertSeg, if_neg h]
      simp only [List.mem_cons]

theorem mem_sortPlan {s : ChargePlan} {l : List ChargePlan} :
    s ∈ sortPlan l ↔ s ∈ l := by
  induction l with
  | nil => simp [sortPlan]
  | cons y ys ih =>
    rw [sortPlan, mem_insertSeg, ih, List.mem_cons]

theorem chain'_insertSeg {x : ChargePlan} {l : List ChargePlan}
    (hl : List.Chain' sortRle l) : List.Chain' sortRle (insertSeg x l) := by
  induction l with
  | nil => simp [insertSeg]
  | cons y ys ih =>
    by_cases h : jslt y x
    · rw [insertSeg, if_pos h]
      refine List.chain'_cons'.mpr ⟨?_, ih hl.tail⟩
      intro h' hh'
      cases ys with
      | nil =>
        simp [insertSeg] at hh'
        exact hh' ▸ jslt_asymm h
      | cons z zs =>
        rw [insertSeg] at hh'
        by_cases hz : jslt z x
        · rw [if_pos hz] at hh'
          simp only [List.head?_cons, Option.mem_def, Option.some.injEq] at hh'
          exact hh' ▸ (List.chain'_cons.mp hl).1
        · rw [if_neg hz] at hh'
          simp only [List.head?_cons, Option.mem_def, Option.some.injEq] at hh'
          exact hh' ▸ jslt_asymm h
    · rw [insertSeg, if_neg h]
      exact List.chain'_cons.mpr ⟨h, hl⟩

theorem chain'_sortPlan (l : List ChargePlan) :
    List.Chain' sortRle (sortPlan l) := by
  induction l with
  | nil => simp [sortPlan]
  | cons y ys ih => exact chain'_insertSeg ih

theorem botChain_of_sortRle {a b : ChargePlan} (hr : sortRle a b) :
    botChain a b := by
  intro hbot
  have hstart : nstart a.chargeStart = .bot := by
    by_contra hne
    exact hr (Or.inl fun hle => hne (XT.le_bot (by rwa [hbot] at hle)))
  refine ⟨hstart, ?_⟩
  by_contra hno
  exact hr (Or.inr ⟨hbot.trans hstart.symm, Or.inl hno⟩)

theorem mergeSeg_chargeStart (a b : ChargePlan) :
    (mergeSeg a b).chargeStart = a.chargeStart := rfl

theorem mergeSeg_chargeStop (a b : ChargePlan) :
    (mergeSeg a b).chargeStop =
      if XT.lt (nstop a.chargeStop) (nstop b.chargeStop) then b.chargeStop
      else a.chargeStop := rfl

theorem mergeSeg_stop_of_le {a b : ChargePlan}
    (h : XT.le (nstop b.chargeStop) (nstop a.chargeStop)) :
    (mergeSeg a b).chargeStop = a.chargeStop := by
  rw [mergeSeg_chargeStop, if_neg fun hlt => hlt h]

theorem mergeSeg_pos {a b : ChargePlan} (ha : SegPos a) (hb : SegPos b) :
    SegPos (mergeSeg a b) := by
  refine ⟨ha.1, ?_⟩
  show posOpt (mergeSeg a b).chargeStop
  rw [mergeSeg_chargeStop]
  by_cases hc : XT.lt (nstop a.chargeStop) (nstop b.chargeStop)
  · rw [if_pos hc]
    exact hb.2
  · rw [if_neg hc]
    exact ha.2

theorem consolidateGo_head :
    ∀ (rest : List ChargePlan) (a : ChargePlan),
      ∃ hd tl, consolidateGo a rest = hd :: tl ∧ hd.chargeStart = a.chargeStart := by
  intro rest
  induction rest with
  | nil => exact fun a => ⟨a, [], rfl, rfl⟩
  | cons b rest ih =>
    intro a
    simp only [consolidateGo]
    split_ifs with h1 h2 h3
    · obtain ⟨hd, tl, heq, hs⟩ := ih (mergeSeg a b)
      exact ⟨hd, tl, heq, hs⟩
    · exact ⟨a, _, rfl, rfl⟩
    · exact ⟨_, _, rfl, rfl⟩
    · exact ⟨a, _, rfl, rfl⟩

theorem consolidateGo_spec :
    ∀ (rest : List ChargePlan) (a : ChargePlan),
      (∀ s ∈ a :: rest, SegPos s) →
      List.Chain' botChain (a :: rest) →
      (∀ s ∈ consolidateGo a rest, SegPos s) ∧
        List.Chain' botChain (consolidateGo a rest) ∧
        List.Chain' pairOk (consolidateGo a rest) := by
  intro rest
  induction rest with
  | nil =>
    intro a hpos _
    refine ⟨fun s hs => ?_, by simp [consolidateGo], by simp [consolidateGo]⟩
    simp only [consolidateGo, List.mem_singleton] at hs
    exact hs ▸ hpos a (by simp)
  | cons b rest ih =>
    intro a hpos hchain
    have hpa : SegPos a := hpos a (by simp)
    have hpb : SegPos b := hpos b (by simp)
    have hab : botChain a b := (List.chain'_cons.mp hchain).1
    have hchain' : List.Chain' botChain (b :: rest) := (List.chain'_cons.mp hchain).2
    have hposbr : ∀ s ∈ b :: rest, SegPos s :=
      fun s hs => hpos s (List.mem_cons_of_mem a hs)
    simp only [consolidateGo]
    split_ifs with h1 h2 h3
    · -- merge branch
      have hposm : ∀ s ∈ mergeSeg a b :: rest, SegPos s := by
        intro s hs
        rcases List.mem_cons.mp hs with rfl | hs
        · exact mergeSeg_pos hpa hpb
        · exact hpos s (by simp [hs])
      have hchm : List.Chain' botChain (mergeSeg a b :: rest) := by
        cases rest with
        | nil => simp
        | cons c cs =>
          refine List.chain'_cons.mpr ⟨?_, (List.chain'_cons.mp hchain').2⟩
          intro hcbot
          have hbc := (List.chain'_cons.mp hchain').1 hcbot
          have hab' := hab hbc.1
          refine ⟨hab'.1, ?_⟩
          rw [mergeSeg_stop_of_le hab'.2]
          exact XT.le_trans hbc.2 hab'.2
      exact ih (mergeSeg a b) hposm hchm
    · -- push branch
      have hlt : ¬ XT.le (nstop b.chargeStop) (nstop a.chargeStop) := (not_or.mp h2).2
      have hatop : nstop a.chargeStop ≠ .top := fun ht => hlt (ht ▸ XT.le_top _)
      obtain ⟨t, hstop_eq, ht0, hfin⟩ := nstop_ne_top hatop
      have htpos : 0 < t := hpa.stop_pos hstop_eq
      have hb'start : ({ b with chargeStart := a.chargeStop } : ChargePlan).chargeStart
          = some t := hstop_eq
      have hposb' : SegPos { b with chargeStart := a.chargeStop } := by
        refine ⟨?_, hpb.2⟩
        show posOpt ({ b with chargeStart := a.chargeStop } : ChargePlan).chargeStart
        rw [hb'start]
        exact htpos
      have hchb' : List.Chain' botChain
          ({ b with chargeStart := a.chargeStop } :: rest) := by
        cases rest with
        | nil => simp
        | cons c cs =>
          refine List.chain'_cons.mpr ⟨?_, (List.chain'_cons.mp hchain').2⟩
          intro hcbot
          have hbc := (List.chain'_cons.mp hchain').1 hcbot
          exact absurd (hab hbc.1).2 hlt
      obtain ⟨IH1, IH2, IH3⟩ := ih { b with chargeStart := a.chargeStop }
        (fun s hs => by
          rcases List.mem_cons.mp hs with rfl | hs
          · exact hposb'
          · exact hpos s (by simp [hs])) hchb'
      obtain ⟨hd, tl, hdeq, hdstart⟩ :=
        consolidateGo_head rest { b with chargeStart := a.chargeStop }
      refine ⟨?_, ?_, ?_⟩
      · intro s hs
        rcases List.mem_cons.mp hs with rfl | hs
        · exact hpa
        · exact IH1 s hs
      · rw [hdeq]
        refine List.chain'_cons.mpr ⟨?_, hdeq ▸ IH2⟩
        intro hbot
        rw [hdstart, hb'start, nstart_some (ne_of_gt htpos)] at hbot
        simp at hbot
      · rw [hdeq]
        refine List.chain'_cons.mpr ⟨?_, hdeq ▸ IH3⟩
        show XT.le (nstop a.chargeStop) (nstart hd.chargeStart)
        rw [hfin, hdstart, hb'start, nstart_some (ne_of_gt htpos)]
        exact XT.le_refl _
    · -- cut branch
      have hlt : ¬ XT.le (nstop b.chargeStop) (nstop a.chargeStop) := (not_or.mp h2).2
      have hbne : nstart b.chargeStart ≠ .bot := fun hbot => hlt (hab hbot).2
      obtain ⟨u, hbstart, hu0, hufin⟩ := nstart_ne_bot hbne
      have hupos : 0 < u := hpb.start_pos hbstart
      obtain ⟨IH1, IH2, IH3⟩ := ih b hposbr hchain'
      obtain ⟨hd, tl, hdeq, hdstart⟩ := consolidateGo_head rest b
      refine ⟨?_, ?_, ?_⟩
      · intro s hs
        rcases List.mem_cons.mp hs with rfl | hs
        · refine ⟨hpa.1, ?_⟩
          show posOpt ({ a with chargeStop := b.chargeStart } : ChargePlan).chargeStop
          rw [show ({ a with chargeStop := b.chargeStart } : ChargePlan).chargeStop
              = b.chargeStart from rfl, hbstart]
          exact hupos
        · exact IH1 s hs
      · rw [hdeq]
        refine List.chain'_cons.mpr ⟨?_, hdeq ▸ IH2⟩
        intro hbot
        rw [hdstart] at hbot
        exact absurd hbot hbne
      · rw [hdeq]
        refine List.chain'_cons.mpr ⟨?_, hdeq ▸ IH3⟩
        show XT.le
          (nstop ({ a with chargeStop := b.chargeStart } : ChargePlan).chargeStop)
          (nstart hd.chargeStart)
        rw [show ({ a with chargeStop := b.chargeStart } : ChargePlan).chargeStop
            = b.chargeStart from rfl, hbstart, nstop_some (ne_of_gt hupos),
          hdstart, hbstart, nstart_some (ne_of_gt hupos)]
        exact XT.le_refl _
    · -- no-overlap branch
      have hok : XT.le (nstop a.chargeStop) (nstart b.chargeStart) := XT.le_of_lt h1
      have hbne2 : nstart b.chargeStart ≠ .bot := by
        intro hbot
        exact h1 (by rw [hbot]; trivial)
      obtain ⟨IH1, IH2, IH3⟩ := ih b hposbr hchain'
      obtain ⟨hd, tl, hdeq, hdstart⟩ := consolidateGo_head rest b
      refine ⟨?_, ?_, ?_⟩
      · intro s hs
        rcases List.mem_cons.mp hs with rfl | hs
        · exact hpa
        · exact IH1 s hs
      · rw [hdeq]
        refine List.chain'_cons.mpr ⟨?_, hdeq ▸ IH2⟩
        intro hbot
        rw [hdstart] at hbot
        exact absurd hbot hbne2
      · rw [hdeq]
        refine List.chain'_cons.mpr ⟨?_, hdeq ▸ IH3⟩
        show XT.le (nstop a.chargeStop) (nstart hd.chargeStart)
        rw [hdstart]
        exact hok

theorem shiftPair_eq_some {a b a2 : ChargePlan} (h : shiftPair a b = some a2) :
    ∃ s p u,
      nstart a.chargeStart = .fin s ∧ nstop a.chargeStop = .fin p ∧
        nstart b.chargeStart = .fin u ∧
        0 < jmin (qsub u p) (qadd (qsub s p) 3600000) ∧
        a2 = { a with chargeStop := b.chargeStart,
                      chargeStart :=
                        some (qadd s (jmin (qsub u p) (qadd (qsub s p) 3600000))) } := by
  unfold shiftPair at h
  cases hsa : nstart a.chargeStart with
  | bot => rw [hsa] at h; exact absurd h (by simp)
  | top => rw [hsa] at h; exact absurd h (by simp)
  | fin s =>
    cases hpa : nstop a.chargeStop with
    | bot => rw [hsa, hpa] at h; exact absurd h (by simp)
    | top => rw [hsa, hpa] at h; exact absurd h (by simp)
    | fin p =>
      cases hub : nstart b.chargeStart with
      | bot => rw [hsa, hpa, hub] at h; exact absurd h (by simp)
      | top => rw [hsa, hpa, hub] at h; exact absurd h (by simp)
      | fin u =>
        rw [hsa, hpa, hub] at h
        simp only [] at h
        split_ifs at h with hc
        · exact ⟨s, p, u, rfl, rfl, rfl, hc.1, (Option.some.inj h).symm⟩

theorem shiftWalk_spec :
    ∀ (rest : List ChargePlan) (a : ChargePlan),
      (∀ s ∈ a :: rest, SegPos s) →
      List.Chain' botChain (a :: rest) →
      (∃ hd tl, (shiftWalk a rest).1 = hd :: tl ∧
          (nstart hd.chargeStart = .bot → hd = a)) ∧
        (∀ s ∈ (shiftWalk a rest).1, SegPos s) ∧
        List.Chain' botChain (shiftWalk a rest).1 ∧
        ((shiftWalk a rest).2 = false → (shiftWalk a rest).1 = a :: rest) := by
  intro rest
  induction rest with
  | nil =>
    intro a hpos _
    exact ⟨⟨a, [], rfl, fun _ => rfl⟩, fun s hs => by
        simp only [shiftWalk, List.mem_singleton] at hs
        exact hs ▸ hpos a (by simp),
      by simp [shiftWalk], fun _ => rfl⟩
  | cons b rest ih =>
    intro a hpos hchain
    have hpa : SegPos a := hpos a (by simp)
    have hpb : SegPos b := hpos b (by simp)
    have hab : botChain a b := (List.chain'_cons.mp hchain).1
    have hchain' : List.Chain' botChain (b :: rest) := (List.chain'_cons.mp hchain).2
    have hposbr : ∀ s ∈ b :: rest, SegPos s :=
      fun s hs => hpos s (List.mem_cons_of_mem a hs)
    obtain ⟨⟨hd, tl, hr1, hhd⟩, hposr, hchr, hflag⟩ := ih b hposbr hchain'
    cases hsp : shiftPair a b with
    | some a2 =>
      obtain ⟨s, p, u, hsa, hpa', hub, hshift, ha2⟩ := shiftPair_eq_some hsp
      obtain ⟨hsa_eq, hs0⟩ := nstart_fin hsa
      obtain ⟨hub_eq, hu0⟩ := nstart_fin hub
      have hspos : 0 < s := hpa.start_pos hsa_eq
      have hupos : 0 < u := hpb.start_pos hub_eq
      have hqpos : 0 < qadd s (jmin (qsub u p) (qadd (qsub s p) 3600000)) := by
        rw [qadd_eq]
        linarith
      have ha2start : a2.chargeStart
          = some (qadd s (jmin (qsub u p) (qadd (qsub s p) 3600000))) := by
        rw [ha2]
      have ha2stop : a2.chargeStop = b.chargeStart := by rw [ha2]
      have hres : shiftWalk a (b :: rest) = (a2 :: (shiftWalk b rest).1, true) := by
        simp only [shiftWalk, hsp]
      have hposa2 : SegPos a2 := by
        refine ⟨?_, ?_⟩
        · show posOpt a2.chargeStart
          rw [ha2start]
          exact hqpos
        · show posOpt a2.chargeStop
          rw [ha2stop, hub_eq]
          exact hupos
      rw [hres]
      refine ⟨⟨a2, (shiftWalk b rest).1, rfl, fun hbot => ?_⟩, ?_, ?_, ?_⟩
      · rw [ha2start, nstart_some (ne_of_gt hqpos)] at hbot
        simp at hbot
      · intro x hx
        rcases List.mem_cons.mp hx with heq | hx
        · exact heq ▸ hposa2
        · exact hposr x hx
      · rw [hr1]
        refine List.chain'_cons.mpr ⟨?_, hr1 ▸ hchr⟩
        intro hbot
        have := hhd hbot
        rw [this, hub_eq, nstart_some (ne_of_gt hupos)] at hbot
        simp at hbot
      · intro hfalse
        simp at hfalse
    | none =>
      have hres : shiftWalk a (b :: rest)
          = (a :: (shiftWalk b rest).1, (shiftWalk b rest).2) := by
        simp only [shiftWalk, hsp]
      rw [hres]
      refine ⟨⟨a, (shiftWalk b rest).1, rfl, fun _ => rfl⟩, ?_, ?_, ?_⟩
      · intro x hx
        rcases List.mem_cons.mp hx with rfl | hx
        · exact hpa
        · exact hposr x hx
      · rw [hr1]
        refine List.chain'_cons.mpr ⟨?_, hr1 ▸ hchr⟩
        intro hbot
        have := hhd hbot
        rw [this] at hbot ⊢
        exact hab hbot
      · intro hfalse
        rw [hflag hfalse]

/-- Stable sort followed by consolidation: every adjacent pair of the result
is non-overlapping, provided all explicit timestamps are positive. -/
theorem cleanupPlan_nonoverlap (plan : List ChargePlan)
    (hpos : ∀ s ∈ plan, SegPos s) : planNonoverlap (cleanupPlan plan) := by
  have hposs : ∀ s ∈ sortPlan plan, SegPos s := fun s hs => hpos s (mem_sortPlan.mp hs)
  have hchains : List.Chain' botChain (sortPlan plan) :=
    (chain'_sortPlan plan).imp fun _ _ h => botChain_of_sortRle h
  unfold cleanupPlan
  cases hs : sortPlan plan with
  | nil => simp [consolidate, shiftRun, planNonoverlap]
  | cons a rest =>
    rw [hs] at hposs hchains
    obtain ⟨hcpos, hcchain, hcok⟩ := consolidateGo_spec rest a hposs hchains
    obtain ⟨hd, tl, hdeq, _⟩ := consolidateGo_head rest a
    rw [show consolidate (a :: rest) = consolidateGo a rest from rfl, hdeq]
    rw [hdeq] at hcpos hcchain hcok
    obtain ⟨⟨hd2, tl2, hr1, _⟩, hposr, hchr, hflag⟩ := shiftWalk_spec tl hd hcpos hcchain
    show planNonoverlap
      (if (shiftWalk hd tl).2 then consolidate (shiftWalk hd tl).1 else (shiftWalk hd tl).1)
    cases hfl : (shiftWalk hd tl).2 with
    | false =>
      rw [if_neg (by simp), hflag hfl]
      exact hcok
    | true =>
      rw [if_pos rfl, hr1]
      rw [hr1] at hposr hchr
      exact (consolidateGo_spec tl2 hd2 hposr hchr).2.2

theorem consolidateGo_levels :
    ∀ (rest : List ChargePlan) (a : ChargePlan),
      ∀ s ∈ consolidateGo a rest, ∃ t ∈ a :: rest, s.level = t.level := by
  intro rest
  induction rest with
  | nil =>
    intro a s hs
    simp only [consolidateGo, List.mem_singleton] at hs
    exact ⟨a, by simp, by rw [hs]⟩
  | cons b rest ih =>
    intro a s hs
    simp only [consolidateGo] at hs
    split_ifs at hs with h1 h2 h3
    · obtain ⟨t, ht, hlev⟩ := ih (mergeSeg a b) s hs
      rcases List.mem_cons.mp ht with heq | ht
      · rcases max_choice a.level b.level with hm | hm
        · exact ⟨a, by simp, by rw [hlev, heq]; exact hm⟩
        · exact ⟨b, by simp, by rw [hlev, heq]; exact hm⟩
      · exact ⟨t, by simp [ht], hlev⟩
    · rcases List.mem_cons.mp hs with heq | hs
      · exact ⟨a, by simp, by rw [heq]⟩
      · obtain ⟨t, ht, hlev⟩ := ih { b with chargeStart := a.chargeStop } s hs
        rcases List.mem_cons.mp ht with heq | ht
        · exact ⟨b, by simp, by rw [hlev, heq]⟩
        · exact ⟨t, by simp [ht], hlev⟩
    · rcases List.mem_cons.mp hs with heq | hs
      · exact ⟨a, by simp, by rw [heq]⟩
      · obtain ⟨t, ht, hlev⟩ := ih b s hs
        exact ⟨t, by simp [List.mem_cons.mp ht], hlev⟩
    · rcases List.mem_cons.mp hs with heq | hs
      · exact ⟨a, by simp, by rw [heq]⟩
      · obtain ⟨t, ht, hlev⟩ := ih b s hs
        exact ⟨t, by simp [List.mem_cons.mp ht], hlev⟩

theorem shiftWalk_levels :
    ∀ (rest : List ChargePlan) (a : ChargePlan),
      ∀ s ∈ (shiftWalk a rest).1, ∃ t ∈ a :: rest, s.level = t.level := by
  intro rest
  induction rest with
  | nil =>
    intro a s hs
    simp only [shiftWalk, List.mem_singleton] at hs
    exact ⟨a, by simp, by rw [hs]⟩
  | cons b rest ih =>
    intro a s hs
    cases hsp : shiftPair a b with
    | some a2 =>
      obtain ⟨_, _, _, _, _, _, _, ha2⟩ := shiftPair_eq_some hsp
      rw [show shiftWalk a (b :: rest) = (a2 :: (shiftWalk b rest).1, true) from
        by simp only [shiftWalk, hsp]] at hs
      rcases List.mem_cons.mp hs with heq | hs
      · exact ⟨a, by simp, by rw [heq, ha2]⟩
      · obtain ⟨t, ht, hlev⟩ := ih b s hs
        exact ⟨t, by simp [List.mem_cons.mp ht], hlev⟩
    | none =>
      rw [show shiftWalk a (b :: rest)
          = (a :: (shiftWalk b rest).1, (shiftWalk b rest).2) from
        by simp only [shiftWalk, hsp]] at hs
      rcases List.mem_cons.mp hs with heq | hs
      · exact ⟨a, by simp, by rw [heq]⟩
      · obtain ⟨t, ht, hlev⟩ := ih b s hs
        exact ⟨t, by simp [List.mem_cons.mp ht], hlev⟩

/-- Every level in a reconciled plan already occurs in the input plan. -/
theorem cleanupPlan_levels (plan : List ChargePlan) :
    ∀ s ∈ cleanupPlan plan, ∃ t ∈ plan, s.level = t.level := by
  intro s hs
  unfold cleanupPlan at hs
  cases hs1 : sortPlan plan with
  | nil => simp [hs1, consolidate, shiftRun] at hs
  | cons a rest =>
    rw [hs1] at hs
    obtain ⟨hd, tl, hdeq, _⟩ := consolidateGo_head rest a
    rw [show consolidate (a :: rest) = consolidateGo a rest from rfl, hdeq] at hs
    have stage1 : ∀ x ∈ hd :: tl, ∃ t ∈ plan, x.level = t.level := by
      intro x hx
      obtain ⟨t, ht, hlev⟩ := consolidateGo_levels rest a x (hdeq ▸ hx)
      exact ⟨t, mem_sortPlan.mp (hs1 ▸ ht), hlev⟩
    simp only [shiftRun] at hs
    by_cases hfl : (shiftWalk hd tl).2
    · rw [if_pos hfl] at hs
      cases hr1 : (shiftWalk hd tl).1 with
      | nil => rw [hr1] at hs; simp [consolidate] at hs
      | cons d drest =>
        rw [hr1] at hs
        obtain ⟨t, ht, hlev⟩ :=
          consolidateGo_levels drest d s (by exact hs)
        obtain ⟨t2, ht2, hlev2⟩ := shiftWalk_levels tl hd t (hr1 ▸ ht)
        obtain ⟨t3, ht3, hlev3⟩ := stage1 t2 ht2
        exact ⟨t3, ht3, by rw [hlev, hlev2, hlev3]⟩
    · rw [if_neg hfl] at hs
      obtain ⟨t2, ht2, hlev2⟩ := shiftWalk_levels tl hd s hs
      obtain ⟨t3, ht3, hlev3⟩ := stage1 t2 ht2
      exact ⟨t3, ht3, by rw [hlev2, hlev3]⟩

/-- The highest target level of a plan (`0` for an empty plan). -/
def planMaxLevel (p : List ChargePlan) : Int :=
  p.foldr (fun s m => max s.level m) 0

theorem level_le_planMaxLevel {p : List ChargePlan} {t : ChargePlan}
    (ht : t ∈ p) : t.level ≤ planMaxLevel p := by
  induction p with
  | nil => simp at ht
  | cons x xs ih =>
    rcases List.mem_cons.mp ht with rfl | ht
    · exact le_max_left _ _
    · exact le_trans (ih ht) (le_max_right _ _)

theorem planMaxLevel_nonneg (p : List ChargePlan) : 0 ≤ planMaxLevel p := by
  induction p with
  | nil => simp [planMaxLevel]
  | cons x xs ih => exact le_trans ih (le_max_right _ _)

theorem planMaxLevel_mono {q p : List ChargePlan}
    (h : ∀ s ∈ q, ∃ t ∈ p, s.level = t.level) :
    planMaxLevel q ≤ planMaxLevel p := by
  induction q with
  | nil => exact planMaxLevel_nonneg p
  | cons x xs ih =>
    refine max_le ?_ (ih fun s hs => h s (List.mem_cons_of_mem x hs))
    obtain ⟨t, ht, hlev⟩ := h x (by simp)
    exact hlev ▸ level_le_planMaxLevel ht

/-- Adjacent pair in reconciled normal form: strictly apart, or touching with
distinct types and a strictly later stop; and the shift pass does not apply. -/
def stableAdj (a b : ChargePlan) : Prop :=
  (XT.lt (nstop a.chargeStop) (nstart b.chargeStart) ∨
      (nstop a.chargeStop = nstart b.chargeStart ∧ a.chargeType ≠ b.chargeType ∧
        XT.lt (nstop a.chargeStop) (nstop b.chargeStop))) ∧
    shiftPair a b = none

instance (a b : ChargePlan) : Decidable (stableAdj a b) :=
  inferInstanceAs (Decidable (_ ∧ _))

instance : DecidableRel sortRle := fun _ _ => inferInstanceAs (Decidable ¬ _)

instance {α : Type} (R : α → α → Prop) [DecidableRel R] (l : List α) :
    Decidable (List.Chain' R l) := decideChain' R l

/-- A plan in reconciled normal form: ordered by the sort comparator and with
every adjacent pair stable under consolidation and shifting. -/
def planStable (q : List ChargePlan) : Prop :=
  List.Chain' sortRle q ∧ List.Chain' stableAdj q

instance (q : List ChargePlan) : Decidable (planStable q) :=
  inferInstanceAs (Decidable (_ ∧ _))

theorem sortPlan_id {l : List ChargePlan} (h : List.Chain' sortRle l) :
    sortPlan l = l := by
  induction l with
  | nil => rfl
  | cons x xs ih =>
    rw [sortPlan, ih h.tail]
    cases xs with
    | nil => rfl
    | cons y ys =>
      rw [insertSeg, if_neg (List.chain'_cons.mp h).1]

theorem nstop_ne_bot (o : Option ℚ) : nstop o ≠ .bot := by
  cases o with
  | none => simp [nstop]
  | some t =>
    by_cases ht : t = 0 <;> simp [nstop, ht]

theorem consolidateGo_id :
    ∀ (rest : List ChargePlan) (a : ChargePlan),
      List.Chain' stableAdj (a :: rest) → consolidateGo a rest = a :: rest := by
  intro rest
  induction rest with
  | nil => intro a _; rfl
  | cons b rest ih =>
    intro a hchain
    have hadj : stableAdj a b := (List.chain'_cons.mp hchain).1
    have hrest : List.Chain' stableAdj (b :: rest) := (List.chain'_cons.mp hchain).2
    simp only [consolidateGo]
    rcases hadj.1 with hstrict | ⟨heq, hne, hstop⟩
    · rw [if_neg hstrict, ih b hrest]
    · have hbne : nstart b.chargeStart ≠ .bot := fun hb =>
        nstop_ne_bot a.chargeStop (heq.trans hb)
      obtain ⟨u, hbstart, hu0, hufin⟩ := nstart_ne_bot hbne
      have hastop : a.chargeStop = some u := by
        have : nstop a.chargeStop = .fin u := heq.trans hufin
        exact (nstop_fin this).1
      rw [if_pos (heq ▸ XT.le_refl _), if_neg (not_or.mpr ⟨hne, hstop⟩)]
      by_cases hl : b.level ≤ a.level
      · rw [if_pos hl]
        have hb' : ({ b with chargeStart := a.chargeStop } : ChargePlan) = b := by
          rw [hastop, ← hbstart]
        rw [hb', ih b hrest]
      · rw [if_neg hl]
        have ha' : ({ a with chargeStop := b.chargeStart } : ChargePlan) = a := by
          rw [hbstart, ← hastop]
        rw [ha', ih b hrest]

theorem shiftWalk_id :
    ∀ (rest : List ChargePlan) (a : ChargePlan),
      List.Chain' (fun x y => shiftPair x y = none) (a :: rest) →
      shiftWalk a rest = (a :: rest, false) := by
  intro rest
  induction rest with
  | nil => intro a _; rfl
  | cons b rest ih =>
    intro a hchain
    have hsp : shiftPair a b = none := (List.chain'_cons.mp hchain).1
    simp only [shiftWalk, hsp, ih b (List.chain'_cons.mp hchain).2]

/-- Plans in reconciled normal form are fixed points of `cleanupPlan`. -/
theorem cleanupPlan_fix {q : List ChargePlan} (h : planStable q) :
    cleanupPlan q = q := by
  unfold cleanupPlan
  rw [sortPlan_id h.1]
  have hcons : consolidate q = q := by
    cases q with
    | nil => rfl
    | cons a rest => exact consolidateGo_id rest a h.2
  rw [hcons]
  have hshift : shiftRun q = (q, false) := by
    cases q with
    | nil => rfl
    | cons a rest =>
      exact shiftWalk_id rest a (h.2.imp fun _ _ hadj => hadj.2)
  rw [hshift]
  simp

/-- A well-formed three-segment plan (positive times, every start before its
stop) on which the reconciled output is not ordered by `chargeStart`: the
middle segment is first pushed to `10100` and then cut back to stop at
`10020`, ending up starting after its successor starts. -/
def c1PlanA : List ChargePlan :=
  [ { chargeStart := some 10000, chargeStop := some 10100, level := 5,
      chargeType := .fill, comment := "" },
    { chargeStart := some 10010, chargeStop := some 10200, level := 1,
      chargeType := .routine, comment := "" },
    { chargeStart := some 10020, chargeStop := some 10300, level := 9,
      chargeType := .prefered, comment := "" } ]

/-- A well-formed plan with pre-1970 timestamps: the shift pass lands a
`chargeStart` exactly on epoch `0`, which `nstart`/`nstop` then coerce to
`∓Infinity` (JS `0 ||` falsiness), breaking even adjacent non-overlap. -/
def c1PlanB : List ChargePlan :=
  [ { chargeStart := some (-5000), chargeStop := some (-3000), level := 1,
      chargeType := .fill, comment := "" },
    { chargeStart := some (-2000), chargeStop := some (-1000), level := 5,
      chargeType := .routine, comment := "" },
    { chargeStart := some 1000, chargeStop := some 2000, level := 5,
      chargeType := .trip, comment := "" } ]

/-- C1 counterexample: the reconciled plan of `c1PlanA` is not ordered by
`chargeStart`, and for `c1PlanB` (timestamps around epoch `0`) even adjacent
non-overlap fails, so the claimed invariant is false as stated. -/
theorem claim_C1_counterexample :
    ¬ planOrderedByStart (cleanupPlan c1PlanA) ∧
      ¬ planNonoverlap (cleanupPlan c1PlanB) := by
  constructor
  · decide
  · decide

/-- C1 (amended): for every input plan whose explicit timestamps are
positive — as every real epoch-millisecond plan is — every adjacent pair of
the reconciled plan satisfies `chargeStop ≤ chargeStart` of its successor
(null stop `= +Infinity`, null start `= -Infinity`).  The ordering half of
the original claim is dropped: `cleanupPlan` can emit out-of-order segments
(see the counterexample). -/
theorem claim_C1_amended (plan : List ChargePlan)
    (hpos : ∀ s ∈ plan, SegPos s) : planNonoverlap (cleanupPlan plan) :=
  cleanupPlan_nonoverlap plan hpos

/-- Witness for C1 (amended) at the concrete plan `c1PlanA`. -/
theorem claim_C1_witness :
    (∀ s ∈ c1PlanA, SegPos s) ∧ planNonoverlap (cleanupPlan c1PlanA) :=
  ⟨by decide, claim_C1_amended c1PlanA (by decide)⟩

/-- Three disjoint proper segments with gaps: the first `cleanupPlan` shifts
the first two segments right (each against its old successor), reopening a
gap behind the second one; a second application shifts again. -/
def c2Plan : List ChargePlan :=
  [ { chargeStart := some 1000, chargeStop := some 2000, level := 2,
      chargeType := .minimum, comment := "" },
    { chargeStart := some 3000, chargeStop := some 4000, level := 5,
      chargeType := .trip, comment := "" },
    { chargeStart := some 6000, chargeStop := some 7000, level := 1,
      chargeType := .fill, comment := "" } ]

/-- C2 counterexample: `cleanupPlan` is not idempotent on `c2Plan`. -/
theorem claim_C2_counterexample :
    cleanupPlan (cleanupPlan c2Plan) ≠ cleanupPlan c2Plan := by decide

/-- C2 (amended): reconciliation is not idempotent in general — the shift
pass can reopen a gap behind a segment it just moved, so a second
application changes the plan (see the counterexample).  A sufficient
condition is proved here: whenever the first reconciliation lands in
reconciled normal form (sorted by the comparator, every adjacent pair
stable under merging and shifting), a second application returns it
unchanged. -/
theorem claim_C2_amended (p : List ChargePlan)
    (h : planStable (cleanupPlan p)) :
    cleanupPlan (cleanupPlan p) = cleanupPlan p :=
  cleanupPlan_fix h

/-- Witness for C2 (amended) at a single-segment plan. -/
theorem claim_C2_witness :
    planStable (cleanupPlan
        [ ({ chargeStart := none, chargeStop := none, level := 90,
             chargeType := .fill, comment := "learning" } : ChargePlan) ]) ∧
      cleanupPlan (cleanupPlan
          [ ({ chargeStart := none, chargeStop := none, level := 90,
               chargeType := .fill, comment := "learning" } : ChargePlan) ])
        = cleanupPlan
            [ ({ chargeStart := none, chargeStop := none, level := 90,
                 chargeType := .fill, comment := "learning" } : ChargePlan) ] :=
  ⟨by decide, claim_C2_amended _ (by decide)⟩

/-- C10: `cleanupPlan` never invents a battery level — every segment of the
reconciled plan carries the level of some input segment (merging only takes
the maximum of two existing levels), and in particular the maximum level
never increases through reconciliation. -/
theorem claim_C10_levels (plan : List ChargePlan) :
    (∀ s ∈ cleanupPlan plan, ∃ t ∈ plan, s.level = t.level) ∧
      planMaxLevel (cleanupPlan plan) ≤ planMaxLevel plan :=
  ⟨cleanupPlan_levels plan, planMaxLevel_mono (cleanupPlan_levels plan)⟩

/-- JS `Math.min` on integers. -/
def jminI (a b : Int) : Int := if a ≤ b then a else b

/-- Modelled from the spec: `DBInterface.getChargeCurve` lives in
`db-interface.ts`, which is not among the sources; per §4.2 of the spec,
`curve[l]` is the stored `ChargeCurve.duration` for level `l`, falling back
to `100` seconds when no row exists. -/
def getChargeCurve (stored : Int → Option ℚ) : Int → ℚ :=
  fun l => (stored l).getD 100

/-- The summation loop of `Logic.chargeDuration`, one addend per level from
the current level up to and including the target (`Math.ceil` is the
identity on integer levels). -/
def chargeDurationGo (stored : Int → Option ℚ) (toLevel : Int) :
    Nat → Int → ℚ
  | 0, _ => 0
  | n + 1, level =>
    qadd
      (qmul (getChargeCurve stored (jminI 100 level))
        (if level < toLevel then 1 else mkRat 3 4))
      (chargeDurationGo stored toLevel n (level + 1))

/-- `Logic.chargeDuration(vehicle, location, from, to)`: sum the per-level
curve durations from `fromLevel` to `toLevel`, weighting the last level by
`0.75`, and convert seconds to milliseconds. -/
def chargeDuration (stored : Int → Option ℚ) (fromLevel toLevel : Int) : ℚ :=
  if toLevel < fromLevel then 0
  else
    qmul (chargeDurationGo stored toLevel ((toLevel - fromLevel).toNat + 1) fromLevel)
      1000

/-- The spec's closed formula for `chargeDuration`:
`Σ_{l=from..to} curve[l] × (l<to ? 1.0 : 0.75) × 1000` ms. -/
def chargeDurationSpec (stored : Int → Option ℚ) (fromLevel toLevel : Int) : ℚ :=
  1000 * ∑ l in Finset.Icc fromLevel toLevel,
    ((stored l).getD 100) * (if l < toLevel then 1 else 3 / 4)

theorem jminI_of_le {a b : Int} (h : b ≤ a) : jminI a b = b := by
  unfold jminI
  by_cases hab : a ≤ b
  · rw [if_pos hab]
    omega
  · rw [if_neg hab]

theorem chargeDurationGo_eq (stored : Int → Option ℚ) (toLevel : Int) :
    ∀ (n : Nat) (level : Int), level + n ≤ 101 →
      chargeDurationGo stored toLevel n level =
        ∑ l in Finset.Ico level (level + (n : Int)),
          ((stored l).getD 100) * (if l < toLevel then 1 else 3 / 4) := by
  intro n
  induction n with
  | zero =>
    intro level _
    simp [chargeDurationGo]
  | succ n ih =>
    intro level hle
    rw [chargeDurationGo, qadd_eq, qmul_eq]
    have hlev : level ≤ 100 := by omega
    have h34 : (mkRat 3 4 : ℚ) = 3 / 4 := by
      rw [Rat.mkRat_eq_div]
      norm_num
    rw [getChargeCurve, jminI_of_le hlev, h34]
    have hins : Finset.Ico level (level + ((n + 1 : Nat) : Int))
        = insert level (Finset.Ico (level + 1) (level + ((n + 1 : Nat) : Int))) := by
      ext x
      simp only [Finset.mem_Ico, Finset.mem_insert]
      push_cast
      omega
    have hnotmem : level ∉ Finset.Ico (level + 1) (level + ((n + 1 : Nat) : Int)) := by
      simp [Finset.mem_Ico]
    rw [hins, Finset.sum_insert hnotmem, ih (level + 1) (by omega)]
    have : level + ((n + 1 : Nat) : Int) = level + 1 + (n : Int) := by
      push_cast
      ring
    rw [this]

/-- C7: for integer levels `from ≤ to ≤ 100`, `chargeDuration` returns
exactly the spec formula `Σ_{l=from..to} curve[l] × (l<to ? 1.0 : 0.75) ×
1000` milliseconds, where `curve[l]` is the stored duration for level `l`
with fallback `100` when missing. -/
theorem claim_C7_chargeDuration (stored : Int → Option ℚ)
    (fromLevel toLevel : Int) (hft : fromLevel ≤ toLevel) (h100 : toLevel ≤ 100) :
    chargeDuration stored fromLevel toLevel
      = chargeDurationSpec stored fromLevel toLevel := by
  rw [chargeDuration, if_neg (not_lt.mpr hft), qmul_eq]
  have hn : (((toLevel - fromLevel).toNat + 1 : Nat) : Int) = toLevel - fromLevel + 1 := by
    omega
  rw [chargeDurationGo_eq stored toLevel _ fromLevel (by omega)]
  rw [chargeDurationSpec, hn]
  have h1 : fromLevel + (toLevel - fromLevel + 1) = toLevel + 1 := by ring
  have h2 : Finset.Ico fromLevel (toLevel + 1) = Finset.Icc fromLevel toLevel := by
    ext x
    simp only [Finset.mem_Ico, Finset.mem_Icc]
    omega
  rw [h1, h2]
  ring

/-- Witness for C7 with a curve storing only level 5 (60 s): levels 4..6
cost `100 + 60 + 100×0.75` seconds, i.e. `235000` ms. -/
theorem claim_C7_witness :
    (4 : Int) ≤ 6 ∧ (6 : Int) ≤ 100 ∧
      chargeDuration (fun l => if l = 5 then some 60 else none) 4 6
        = chargeDurationSpec (fun l => if l = 5 then some 60 else none) 4 6 ∧
      chargeDuration (fun l => if l = 5 then some 60 else none) 4 6 = 235000 :=
  ⟨by decide, by decide,
    claim_C7_chargeDuration _ 4 6 (by decide) (by decide), by decide⟩

/-- A row of the location's `price_list`: hour timestamp and price. -/
structure PricePoint where
  ts : ℚ
  price : ℚ
deriving DecidableEq

def insertByPrice (x : PricePoint) : List PricePoint → List PricePoint
  | [] => [x]
  | y :: ys => if y.price < x.price then y :: insertByPrice x ys else x :: y :: ys

/-- The SQL `ORDER BY price` of the future price map, as a stable sort. -/
def sortByPrice : List PricePoint → List PricePoint
  | [] => []
  | x :: xs => insertByPrice x (sortByPrice xs)

/-- The cap test `maxPrice && price.price > maxPrice` of
`generateChargePlan`: with `maxPrice` absent or `0` (falsy) the cap is
never applied. -/
def maxPriceHit (mp : Option ℚ) (price : ℚ) : Bool :=
  match mp with
  | none => false
  | some m => if m = 0 then false else decide (m < price)

theorem maxPriceHit_none (price : ℚ) : maxPriceHit none price = false := rfl

theorem maxPriceHit_zero (price : ℚ) : maxPriceHit (some 0) price = false := by
  simp [maxPriceHit]

/-- The emission loop of `Logic.generateChargePlan`: cheapest hours first,
stop when the needed time is covered or the price cap is hit; each segment
is clipped to its hour, to `before`, and to the remaining time. -/
def generateChargePlanGo (batteryLevel : Int) (chargeType : ChargeType)
    (comment : String) (now before : ℚ) (maxPrice : Option ℚ) :
    List PricePoint → ℚ → List ChargePlan
  | [], _ => []
  | p :: ps, timeLeft =>
    if timeLeft ≤ 0 then []
    else if maxPriceHit maxPrice p.price then []
    else
      let start := if p.ts < now then now else p.ts
      let e := jmin (jmin (qadd start timeLeft) before) (qadd p.ts 3600000)
      { chargeStart := if p.ts < start then some p.ts else some start,
        chargeStop := some e, level := batteryLevel,
        chargeType := chargeType, comment := comment }
        :: generateChargePlanGo batteryLevel chargeType comment now before maxPrice
            ps (qsub timeLeft (qsub e start))

/-- `Logic.generateChargePlan`: needed time from the charge curve, price
rows of the location within `[now - 1h, before)` ordered by price, walked by
`generateChargePlanGo`; without any price data a single `routine` segment of
the full duration starting now; `before = before || 10e13` (JS falsy `0`). -/
def generateChargePlan (curve : Int → Option ℚ) (prices : List PricePoint)
    (level batteryLevel : Int) (chargeType : ChargeType) (comment : String)
    (now before0 : ℚ) (maxPrice : Option ℚ) : List ChargePlan :=
  let timeNeeded := chargeDuration curve level batteryLevel
  let before := if before0 = 0 then 100000000000000 else before0
  if 0 < timeNeeded then
    match sortByPrice (prices.filter fun p =>
        decide (qsub now 3600000 ≤ p.ts) && decide (p.ts < before)) with
    | [] =>
      [ { chargeStart := none, chargeStop := some (qadd now timeNeeded),
          level := batteryLevel, chargeType := ChargeType.routine,
          comment := comment } ]
    | p :: ps =>
      generateChargePlanGo batteryLevel chargeType comment now before maxPrice
        (p :: ps) timeNeeded
  else []

theorem generateChargePlanGo_zero_cap (batteryLevel : Int)
    (chargeType : ChargeType) (comment : String) (now before : ℚ) :
    ∀ (l : List PricePoint) (t : ℚ),
      generateChargePlanGo batteryLevel chargeType comment now before (some 0) l t
        = generateChargePlanGo batteryLevel chargeType comment now before none l t := by
  intro l
  induction l with
  | nil => intro t; rfl
  | cons p ps ih =>
    intro t
    simp only [generateChargePlanGo, maxPriceHit_zero, maxPriceHit_none, ih]

/-- C9: a `maxPrice` of `0` disables the price cap entirely — `0` is falsy
in JS, so `maxPrice && price.price > maxPrice` never fires and
`generateChargePlan` behaves exactly as if no `maxPrice` had been given (as
happens for the low-price fill when the threshold price computes to `0`). -/
theorem claim_C9_zero_maxPrice (curve : Int → Option ℚ)
    (prices : List PricePoint) (level batteryLevel : Int)
    (chargeType : ChargeType) (comment : String) (now before0 : ℚ) :
    generateChargePlan curve prices level batteryLevel chargeType comment
        now before0 (some 0)
      = generateChargePlan curve prices level batteryLevel chargeType comment
          now before0 none := by
  unfold generateChargePlan
  by_cases ht : 0 < chargeDuration curve level batteryLevel
  · simp only [if_pos ht]
    cases sortByPrice (prices.filter fun p =>
        decide (qsub now 3600000 ≤ p.ts)
          && decide (p.ts < if before0 = 0 then 100000000000000 else before0)) with
    | nil => rfl
    | cons p ps => exact generateChargePlanGo_zero_cap _ _ _ _ _ _ _
  · simp only [if_neg ht]

/-- The trip-distance update of `updateVehicleData`: the trip row's distance
becomes `odometer - start_odometer` whenever that means forward progress
(`Math.round` is the identity on integer metre counts). -/
def tripDistanceUpdate (startOdometer oldDistance odometer : Int) : Int :=
  let distance := odometer - startOdometer
  if 0 < distance - oldDistance then distance else oldDistance

/-- The trip-termination decision of `updateVehicleData` (lines 409-444):
returns `(stopTrip, deleted)`.  A trip ends when the vehicle stops driving
at a known location (deleting it there when under 1 km) or — without any
deletion check — when it stops driving while a charger is connected. -/
def tripClose (driving locKnown connected : Bool) (distance : Int) :
    Bool × Bool :=
  if driving then (false, false)
  else if locKnown then (true, decide (distance < 1000))
  else if connected then (true, false)
  else (false, false)

/-- One `!driving` telemetry step of the trip state machine: update the
distance, then decide termination and deletion. -/
def tripTermination (driving locKnown connected : Bool)
    (startOdometer oldDistance odometer : Int) : Int × Bool × Bool :=
  let d := tripDistanceUpdate startOdometer oldDistance odometer
  (d, tripClose driving locKnown connected d)

/-- C6 counterexample: a vehicle that stops driving at an unknown location
with a charger connected ends its 500 m trip, yet the trip row is not
deleted — short trips survive termination on this path. -/
theorem claim_C6_counterexample :
    (tripTermination false false true 0 0 500).2.1 = true ∧
      (tripTermination false false true 0 0 500).1 < 1000 ∧
      (tripTermination false false true 0 0 500).2.2 = false := by
  decide

/-- C6 (amended): when a trip is terminated, the row is deleted exactly when
the vehicle is at a known location and the recorded distance is under
1000 m; a trip closed by connecting at an unknown location is kept
regardless of distance. -/
theorem claim_C6_amended (driving locKnown connected : Bool)
    (startOdometer oldDistance odometer : Int)
    (hstop : (tripTermination driving locKnown connected
        startOdometer oldDistance odometer).2.1 = true) :
    ((tripTermination driving locKnown connected
        startOdometer oldDistance odometer).2.2 = true ↔
      locKnown = true ∧ (tripTermination driving locKnown connected
        startOdometer oldDistance odometer).1 < 1000) := by
  cases driving <;> cases locKnown <;> cases connected <;>
    simp_all [tripTermination, tripClose]

/-- A `current_stats` row for a fixed (vehicle, location): serial key and
the price-list timestamp recorded at insert time (NULL-able, as the SQL
`MAX(ts)` of an empty price list is NULL). -/
structure StatsRow where
  stats_id : Nat
  price_list_ts : Option ℚ
deriving DecidableEq

/-- `SELECT MAX(ts) FROM price_list ...`: NULL on an empty list. -/
def maxTs : List ℚ → Option ℚ
  | [] => none
  | t :: ts =>
    match maxTs ts with
    | none => some t
    | some m => some (jmax t m)

/-- `ORDER BY stats_id DESC LIMIT 1` over the stored rows. -/
def newestRow : List StatsRow → Option StatsRow
  | [] => none
  | r :: rs =>
    match newestRow rs with
    | none => some r
    | some b => some (if b.stats_id < r.stats_id then r else b)

/-- SQL three-valued `=` collapsed by the JS truthiness test on `fresh`:
`NULL = anything` is NULL, which is falsy. -/
def sqlEq (a b : Option ℚ) : Bool :=
  match a, b with
  | some x, some y => decide (x = y)
  | _, _ => false

/-- Next serial `stats_id` handed out by the insert. -/
def nextId : List StatsRow → Nat
  | [] => 1
  | r :: rs => Nat.max (r.stats_id + 1) (nextId rs)

/-- `createNewStats` restricted to the fields C3 is about: inserts a fresh
row stamped with the location's current `MAX(ts)` and returns it. -/
def createNewStats (rows : List StatsRow) (prices : List ℚ) :
    List StatsRow × StatsRow :=
  let r : StatsRow := { stats_id := nextId rows, price_list_ts := maxTs prices }
  (r :: rows, r)

/-- `currentStats`: fetch the newest row, return it if its `price_list_ts`
equals the current `MAX(ts)` (SQL `=`, so never with a NULL on either side),
otherwise run `createNewStats`. -/
def currentStats (rows : List StatsRow) (prices : List ℚ) :
    List StatsRow × StatsRow :=
  match newestRow rows with
  | some s =>
    if sqlEq s.price_list_ts (maxTs prices) then (rows, s)
    else createNewStats rows prices
  | none => createNewStats rows prices

theorem newestRow_lt_nextId :
    ∀ (rows : List StatsRow) (b : StatsRow),
      newestRow rows = some b → b.stats_id < nextId rows := by
  intro rows
  induction rows with
  | nil => intro b h; simp [newestRow] at h
  | cons r rs ih =>
    intro b h
    simp only [newestRow] at h
    have hL : r.stats_id + 1 ≤ Nat.max (r.stats_id + 1) (nextId rs) :=
      Nat.le_max_left _ _
    have hR : nextId rs ≤ Nat.max (r.stats_id + 1) (nextId rs) :=
      Nat.le_max_right _ _
    cases hm : newestRow rs with
    | none =>
      rw [hm] at h
      simp only [Option.some.injEq] at h
      subst h
      simp only [nextId]
      omega
    | some c =>
      rw [hm] at h
      simp only [Option.some.injEq] at h
      subst h
      have hc := ih c hm
      simp only [nextId]
      split <;> omega

theorem maxTs_isSome (prices : List ℚ) (h : prices ≠ []) :
    ∃ m, maxTs prices = some m := by
  cases prices with
  | nil => exact absurd rfl h
  | cons t ts =>
    simp only [maxTs]
    cases maxTs ts with
    | none => exact ⟨t, rfl⟩
    | some m => exact ⟨jmax t m, rfl⟩

/-- C3 counterexample: with an empty price list the freshness test
`price_list_ts = MAX(ts)` is SQL NULL (falsy), so a second call with no
intervening insert re-runs `createNewStats` and returns a different row. -/
theorem claim_C3_counterexample :
    (currentStats (currentStats [] []).1 []).2 ≠ (currentStats [] []).2 := by
  decide

/-- C3 (amended): as long as the location has at least one price point,
`currentStats` called twice with no intervening price insert returns the
same row both times — the newest stored row when it is stamped with the
latest price timestamp, else the row `createNewStats` just inserted, which
the second call then finds newest and fresh. -/
theorem claim_C3_repeatable (rows : List StatsRow) (prices : List ℚ)
    (h : prices ≠ []) :
    (currentStats (currentStats rows prices).1 prices).2
      = (currentStats rows prices).2 := by
  obtain ⟨m, hm⟩ := maxTs_isSome prices h
  have hself : sqlEq (maxTs prices) (maxTs prices) = true := by
    rw [hm]; simp [sqlEq]
  cases hn : newestRow rows with
  | some s =>
    by_cases hf : sqlEq s.price_list_ts (maxTs prices) = true
    · have h1 : currentStats rows prices = (rows, s) := by
        simp [currentStats, hn, hf]
      rw [h1]
      simp [h1]
    · have h1 : currentStats rows prices = createNewStats rows prices := by
        simp [currentStats, hn, hf]
      have hlt := newestRow_lt_nextId rows s hn
      have hnew : newestRow
          ({ stats_id := nextId rows, price_list_ts := maxTs prices } :: rows)
            = some { stats_id := nextId rows, price_list_ts := maxTs prices } := by
        simp only [newestRow, hn]
        simp [hlt]
      have h2 : currentStats
            ({ stats_id := nextId rows, price_list_ts := maxTs prices } :: rows)
            prices
          = ({ stats_id := nextId rows, price_list_ts := maxTs prices } :: rows,
              { stats_id := nextId rows, price_list_ts := maxTs prices }) := by
        simp [currentStats, hnew, hself]
      rw [h1]
      simp only [createNewStats]
      rw [h2]
  | none =>
    have hnil : rows = [] := by
      cases rows with
      | nil => rfl
      | cons r rs =>
        exfalso
        simp only [newestRow] at hn
        cases hx : newestRow rs <;> rw [hx] at hn <;> simp at hn
    subst hnil
    have h1 : currentStats [] prices = createNewStats [] prices := by
      simp [currentStats, newestRow]
    have h2 : currentStats (createNewStats [] prices).1 prices
        = ((createNewStats [] prices).1, (createNewStats [] prices).2) := by
      simp [currentStats, createNewStats, newestRow, hself]
    rw [h1, h2]

/-- Witness for C3 (amended): one price point, empty stats store. -/
theorem claim_C3_witness :
    ([(5 : ℚ)] ≠ []) ∧
      (currentStats (currentStats [] [(5 : ℚ)]).1 [(5 : ℚ)]).2
        = (currentStats [] [(5 : ℚ)]).2 :=
  ⟨by decide, claim_C3_repeatable [] [(5 : ℚ)] (by decide)⟩

/-- One priced hour of a past connection (`HistoryHour` in
`createNewStats`). -/
structure HistoryHour where
  fraction : ℚ
  price : ℚ
  threshold : ℚ
deriving DecidableEq

/-- One past connection of the history map (`HistoryMap` in
`createNewStats`); `needed` is SQL-NULL for the newest connection, which JS
arithmetic coerces to 0. -/
structure HistoryMap where
  start_level : ℚ
  needed : Option ℚ
  offsite : Bool
  hours : List HistoryHour
deriving DecidableEq

def neededOf (p : HistoryMap) : ℚ := p.needed.getD 0

def insertHour (x : HistoryHour) : List HistoryHour → List HistoryHour
  | [] => [x]
  | y :: ys =>
    if x.threshold < y.threshold then x :: y :: ys else y :: insertHour x ys

/-- `hours.sort((a, b) => a.threshold - b.threshold)`: stable ascending. -/
def sortHours (l : List HistoryHour) : List HistoryHour :=
  l.foldl (fun acc x => insertHour x acc) []

/-- Accumulator of the cost simulation: carried level and the totals. -/
structure SimState where
  lvl : ℚ
  totalCharged : ℚ
  totalCost : ℚ
deriving DecidableEq

/-- The body of the hour loop: charge to maximum when the hour's threshold
is under the candidate `t`, else top up to `neededLevel`, clipping by the
hour fraction and the per-percent charge time `lct`. -/
def simStep (cl_max t neededLevel lct : ℚ) (h : HistoryHour) (st : SimState) :
    SimState :=
  let charge :=
    if h.threshold ≤ t then qsub cl_max st.lvl
    else if st.lvl < neededLevel then qsub neededLevel st.lvl else 0
  if 0 < charge then
    let chargeTime := jmin (qmul 3600 h.fraction) (qmul charge lct)
    let newLevel := jmin cl_max (qadd st.lvl (qdiv chargeTime lct))
    { lvl := newLevel,
      totalCharged := qadd st.totalCharged (qsub newLevel st.lvl),
      totalCost := qadd st.totalCost (qmul (qdiv chargeTime 3600) h.price) }
  else st

/-- The hour loop after `smartCharging` switched on (the list was sorted by
threshold and is never re-sorted). -/
def simSmart (cl_max t neededLevel lct : ℚ) :
    List HistoryHour → SimState → SimState
  | [], st => st
  | h :: rest, st =>
    simSmart cl_max t neededLevel lct rest (simStep cl_max t neededLevel lct h st)

/-- The hour loop before `smartCharging`: once the carried level reaches
`minimum_charge` the remaining hours are sorted by threshold and handed to
`simSmart`. -/
def simDumb (cl_min cl_max t neededLevel lct : ℚ) :
    List HistoryHour → SimState → SimState
  | [], st => st
  | h :: rest, st =>
    if cl_min ≤ st.lvl then
      simSmart cl_max t neededLevel lct (sortHours (h :: rest)) st
    else
      simDumb cl_min cl_max t neededLevel lct rest
        (simStep cl_max t neededLevel lct h st)

/-- Run one connection's hours from carried level `l0`, with
`neededLevel = min(max, max(min, min + needed * 1.1))`. -/
def simEntryRun (cl_min cl_max lct t : ℚ) (e : HistoryMap) (st : SimState)
    (l0 : ℚ) : SimState :=
  let neededLevel :=
    jmin cl_max (jmax cl_min (qadd cl_min (qmul (neededOf e) (mkRat 11 10))))
  simDumb cl_min cl_max t neededLevel lct e.hours { st with lvl := l0 }

/-- One iteration of the `for (let i = 0; ...)` loop of the cost
simulation, threading a broken flag for the `lvl = -1; break`: reset the
level after an offsite (or missing) predecessor, otherwise subtract the
predecessor's `needed` and break when the result is below both this
connection's `start_level` and `minimum_charge / 2`. -/
def simConnsStep (cl_min cl_max lct t : ℚ) (prev : Option HistoryMap)
    (e : HistoryMap) (p : SimState × Bool) : SimState × Bool :=
  if p.2 then p
  else
    match prev with
    | none => (simEntryRun cl_min cl_max lct t e p.1 e.start_level, false)
    | some q =>
      if q.offsite = true then
        (simEntryRun cl_min cl_max lct t e p.1 e.start_level, false)
      else
        let l2 := qsub p.1.lvl (neededOf q)
        if l2 < e.start_level ∧ l2 < qdiv cl_min 2 then
          ({ p.1 with lvl := -1 }, true)
        else (simEntryRun cl_min cl_max lct t e p.1 l2, false)

def simConnsGo (cl_min cl_max lct t : ℚ) :
    List HistoryMap → Option HistoryMap → SimState × Bool → SimState × Bool
  | [], _, p => p
  | e :: rest, prev, p =>
    simConnsGo cl_min cl_max lct t rest (some e)
      (simConnsStep cl_min cl_max lct t prev e p)

/-- The whole simulation of one candidate threshold `t` from a zeroed
accumulator. -/
def candidateResult (cl_min cl_max lct t : ℚ) (hm : List HistoryMap) :
    SimState × Bool :=
  simConnsGo cl_min cl_max lct t hm none
    ({ lvl := 0, totalCharged := 0, totalCost := 0 }, false)

/-- JS number results of `totalCost / totalCharged` and the running
`bestCost`, which starts at `Number.POSITIVE_INFINITY` and compares false
against `NaN`. -/
inductive FVal where
  | negInf
  | fin (q : ℚ)
  | posInf
  | nan
deriving DecidableEq

def jsDivF (a b : ℚ) : FVal :=
  if b = 0 then
    if a = 0 then FVal.nan else if 0 < a then FVal.posInf else FVal.negInf
  else FVal.fin (qdiv a b)

def fless : FVal → FVal → Bool
  | FVal.nan, _ => false
  | _, FVal.nan => false
  | FVal.negInf, FVal.negInf => false
  | FVal.negInf, _ => true
  | _, FVal.negInf => false
  | FVal.posInf, _ => false
  | FVal.fin _, FVal.posInf => true
  | FVal.fin a, FVal.fin b => decide (a < b)

def memQ (x : ℚ) : List ℚ → Bool
  | [] => false
  | y :: ys => if x = y then true else memQ x ys

/-- `.filter((v, i, a) => a.indexOf(v) === i)`: keep first occurrences. -/
def dedupGo : List ℚ → List ℚ → List ℚ
  | _, [] => []
  | seen, x :: xs =>
    if memQ x seen then dedupGo seen xs else x :: dedupGo (x :: seen) xs

/-- The `reduce((p, c) => [...c.hours.map(h => h.threshold), ...p], [])`
collection of every hour's threshold. -/
def collectThresholds (hm : List HistoryMap) : List ℚ :=
  hm.foldl (fun acc e => (e.hours.map fun h => h.threshold) ++ acc) []

def insertQ (x : ℚ) : List ℚ → List ℚ
  | [] => [x]
  | y :: ys => if x < y then x :: y :: ys else y :: insertQ x ys

def sortQ (l : List ℚ) : List ℚ := l.foldl (fun acc x => insertQ x acc) []

/-- The deduplicated, ascending `thresholdList` of `createNewStats`. -/
def thresholdList (hm : List HistoryMap) : List ℚ :=
  sortQ (dedupGo [] (collectThresholds hm))

/-- The `for (const t of thresholdList)` selection: keep `t` when the
simulated final level clears `minimum_charge` and the cost per charged
percent beats the best so far. -/
def selectThresholdGo (cl_min cl_max lct : ℚ) (hm : List HistoryMap) :
    List ℚ → ℚ → FVal → ℚ
  | [], best, _ => best
  | t :: ts, best, bc =>
    let r := candidateResult cl_min cl_max lct t hm
    let f := jsDivF r.1.totalCost r.1.totalCharged
    let p : ℚ × FVal :=
      if decide (cl_min < r.1.lvl) && fless f bc then (t, f) else (best, bc)
    selectThresholdGo cl_min cl_max lct hm ts p.1 p.2

/-- The selected threshold, starting from `threshold = 1` and
`bestCost = +∞`. -/
def selectThreshold (cl_min cl_max lct : ℚ) (hm : List HistoryMap) : ℚ :=
  selectThresholdGo cl_min cl_max lct hm (thresholdList hm) 1 FVal.posInf

theorem simConnsGo_broken (cl_min cl_max lct t : ℚ) :
    ∀ (l : List HistoryMap) (prev : Option HistoryMap) (st : SimState),
      simConnsGo cl_min cl_max lct t l prev (st, true) = (st, true) := by
  intro l
  induction l with
  | nil => intro prev st; rfl
  | cons e rest ih =>
    intro prev st
    have hstep : simConnsStep cl_min cl_max lct t prev e (st, true) = (st, true) := by
      simp [simConnsStep]
    simp only [simConnsGo, hstep]
    exact ih (some e) st

def c4e0 : HistoryMap :=
  { start_level := 80, needed := some 60, offsite := false, hours := [] }

def c4e1 : HistoryMap :=
  { start_level := 10, needed := some 0, offsite := false,
    hours := [{ fraction := 1, price := 36, threshold := mkRat 1 2 }] }

/-- C4 counterexample: after the onsite predecessor `c4e0` the carried
level drops to 20, below `minimum_charge / 2 = 25`, yet because 20 is not
also below this connection's `start_level = 10` the candidate `t = 1/2`
does not fail — the simulation completes unbroken and `1/2` is selected. -/
theorem claim_C4_counterexample :
    (qsub (simConnsGo 50 90 1 (mkRat 1 2) [c4e0] none
          ({ lvl := 0, totalCharged := 0, totalCost := 0 }, false)).1.lvl
        (neededOf c4e0) < qdiv 50 2)
      ∧ (candidateResult 50 90 1 (mkRat 1 2) [c4e0, c4e1]).2 = false
      ∧ selectThreshold 50 90 1 [c4e0, c4e1] = mkRat 1 2 := by
  decide

/-- C4 (amended): at a connection following an onsite predecessor the
carried level is decremented by the predecessor's `needed`, and the
candidate fails only when the decremented level is below BOTH this
connection's `start_level` AND `minimum_charge / 2`; when it fails, the
simulation breaks with level -1 and (for any `minimum_charge ≥ -1`) the
selection loop skips this candidate, leaving the running best unchanged. -/
theorem claim_C4_amended (cl_min cl_max lct t : ℚ) (hm : List HistoryMap)
    (p e : HistoryMap) (rest : List HistoryMap) (st : SimState)
    (hoff : p.offsite = false)
    (ha : qsub st.lvl (neededOf p) < e.start_level)
    (hb : qsub st.lvl (neededOf p) < qdiv cl_min 2)
    (hmin : (-1 : ℚ) ≤ cl_min)
    (hrun : candidateResult cl_min cl_max lct t hm
        = simConnsGo cl_min cl_max lct t (e :: rest) (some p) (st, false)) :
    candidateResult cl_min cl_max lct t hm = ({ st with lvl := -1 }, true)
      ∧ ∀ (ts : List ℚ) (best : ℚ) (bc : FVal),
          selectThresholdGo cl_min cl_max lct hm (t :: ts) best bc
            = selectThresholdGo cl_min cl_max lct hm ts best bc := by
  have hstep : simConnsStep cl_min cl_max lct t (some p) e (st, false)
      = ({ st with lvl := -1 }, true) := by
    simp [simConnsStep, hoff, ha, hb]
  have hres : candidateResult cl_min cl_max lct t hm
      = ({ st with lvl := -1 }, true) := by
    rw [hrun]
    simp only [simConnsGo, hstep]
    exact simConnsGo_broken cl_min cl_max lct t rest (some e) _
  refine ⟨hres, ?_⟩
  intro ts best bc
  have hnl : ¬ (cl_min < (-1 : ℚ)) := not_lt.mpr hmin
  simp [selectThresholdGo, hres, hnl]

def c4we1 : HistoryMap :=
  { start_level := 30, needed := some 0, offsite := false,
    hours := [{ fraction := 1, price := 36, threshold := mkRat 1 2 }] }

/-- Witness for C4 (amended): with `start_level = 30` the decremented level
20 is below both bounds, so the break fires and `t = 1/2` is skipped. -/
theorem claim_C4_witness :
    (c4e0.offsite = false
        ∧ qsub ({ lvl := 80, totalCharged := 0, totalCost := 0 } : SimState).lvl
            (neededOf c4e0) < c4we1.start_level
        ∧ qsub ({ lvl := 80, totalCharged := 0, totalCost := 0 } : SimState).lvl
            (neededOf c4e0) < qdiv 50 2
        ∧ (-1 : ℚ) ≤ 50
        ∧ candidateResult 50 90 1 (mkRat 1 2) [c4e0, c4we1]
            = simConnsGo 50 90 1 (mkRat 1 2) [c4we1] (some c4e0)
                ({ lvl := 80, totalCharged := 0, totalCost := 0 }, false))
      ∧ (candidateResult 50 90 1 (mkRat 1 2) [c4e0, c4we1]
            = ({ lvl := -1, totalCharged := 0, totalCost := 0 }, true)
          ∧ ∀ (ts : List ℚ) (best : ℚ) (bc : FVal),
              selectThresholdGo 50 90 1 [c4e0, c4we1] ((mkRat 1 2) :: ts) best bc
                = selectThresholdGo 50 90 1 [c4e0, c4we1] ts best bc) :=
  ⟨⟨by decide, by decide, by decide, by decide, by decide⟩,
    claim_C4_amended 50 90 1 (mkRat 1 2) [c4e0, c4we1] c4e0 c4we1 []
      { lvl := 80, totalCharged := 0, totalCost := 0 }
      (by decide) (by decide) (by decide) (by decide) (by decide)⟩

/-- Witness for C6 (amended): stop at a known location after 500 m. -/
theorem claim_C6_witness :
    (tripTermination false true false 0 0 500).2.1 = true ∧
      ((tripTermination false true false 0 0 500).2.2 = true ↔
        true = true ∧ (tripTermination false true false 0 0 500).1 < 1000) :=
  ⟨by decide, claim_C6_amended false true false 0 0 500 (by decide)⟩

def jmaxI (a b : Int) : Int := if a < b then b else a

/-- The `current_stats` fields `refreshVehicleChargePlan` reads;
`level_charge_time` is stored rounded, with SQL NULL rounded to 0, so `0`
is its falsy value. -/
structure StatsRec where
  level_charge_time : Int
  weekly_avg7_price : ℚ
  weekly_avg21_price : ℚ
  threshold : ℚ
deriving DecidableEq

/-- A scheduled trip: departure time (ms epoch) and target level. -/
structure TripRec where
  time : ℚ
  level : Int
deriving DecidableEq

/-- The vehicle row fields `refreshVehicleChargePlan` reads. -/
structure VehicleM where
  locationKnown : Bool
  charge_plan : Option (List ChargePlan)
  level : Int
  minimum_charge : Int
  maximum_charge : Int
  anxiety_level : Int
  scheduled_trip : Option TripRec
deriving DecidableEq

/-- The database answers `refreshVehicleChargePlan` receives: the
`MAX(level)` of the vehicle's charge curve at this location, the stats row,
the charge curve, the learned `guess` row (both fields NULL-able), the
location's price rows and the current time. -/
structure RefreshEnv where
  maxLevel : Option Int
  stats : Option StatsRec
  curve : Int → Option ℚ
  guessCharge : Option ℚ
  guessBefore : Option ℚ
  prices : List PricePoint
  now : ℚ

/-- JS falsiness of a nullable number: `null` and `0` are falsy. -/
def falsyQ : Option ℚ → Bool
  | none => true
  | some x => decide (x = 0)

def calibrationSeg : ChargePlan :=
  { chargeStart := none, chargeStop := none, level := 100,
    chargeType := ChargeType.calibrate, comment := "Charge calibration" }

/-- The plan seeding filter: keep only segments already in progress
(`chargeStart === null`) while the vehicle is below `minimum_charge + 1`. -/
def seedPlan (v : VehicleM) : List ChargePlan :=
  match v.charge_plan with
  | none => []
  | some cp =>
    cp.filter fun f =>
      decide (f.chargeStart = none) && decide (v.level < v.minimum_charge + 1)

/-- The calibration-override test:
`vehicle.level < vehicle.maximum_charge && (maxLevel || 0) < 100`. -/
def calibCond (v : VehicleM) (env : RefreshEnv) : Bool :=
  decide (v.level < v.maximum_charge) && decide (env.maxLevel.getD 0 < 100)

def emergencySeg (v : VehicleM) (env : RefreshEnv) : ChargePlan :=
  { chargeStart := none,
    chargeStop :=
      some (qadd env.now (chargeDuration env.curve v.level v.minimum_charge)),
    level := v.minimum_charge, chargeType := ChargeType.minimum,
    comment := "emergency charge" }

/-- The emergency branch: below `minimum_charge` the accumulated plan is
REPLACED by the single emergency segment (`plan = [ {...} ]`). -/
def planAfterEmergency (v : VehicleM) (env : RefreshEnv)
    (plan0 : List ChargePlan) : List ChargePlan :=
  if v.level < v.minimum_charge then [emergencySeg v env] else plan0

def fillLearningSeg (v : VehicleM) : ChargePlan :=
  { chargeStart := none, chargeStop := none, level := v.maximum_charge,
    chargeType := ChargeType.fill, comment := "learning" }

/-- The `level <= maximum_charge` section: learning fallback when stats or
the guess are missing, otherwise the routine plan (and the anxiety plan)
from the guessed charge and disconnect time; returns the appended segments
and the `disconnectTime` it sets. -/
def routineSection (v : VehicleM) (env : RefreshEnv) : List ChargePlan × ℚ :=
  if v.level ≤ v.maximum_charge then
    match env.stats with
    | none => ([fillLearningSeg v], 0)
    | some s =>
      if s.level_charge_time = 0 then ([fillLearningSeg v], 0)
      else if falsyQ env.guessBefore || falsyQ env.guessCharge then
        ([fillLearningSeg v], 0)
      else
        let charge := env.guessCharge.getD 0
        let before0 := env.guessBefore.getD 0
        let minimumLevel := jminI v.maximum_charge
          (jround (qadd (qadd (v.minimum_charge : ℚ) charge) 5))
        let before := qmul before0 1000
        let p := generateChargePlan env.curve env.prices v.level minimumLevel
          ChargeType.routine "routine charge" env.now before none
        let panx :=
          if v.anxiety_level = 0 then []
          else
            let anxietyLevel :=
              if 1 < v.anxiety_level then v.maximum_charge
              else jround (qadd (minimumLevel : ℚ)
                (qdiv ((v.maximum_charge - minimumLevel : ℤ) : ℚ) 2))
            generateChargePlan env.curve env.prices v.level anxietyLevel
              ChargeType.prefered "charge setting" env.now before none
        (p ++ panx, before)
  else ([], 0)

/-- The trip section: drop trips over an hour past, ignore trips more than
36 hours away, otherwise plan up to `prepareLevel` before the top-up start
and add the top-up segment; updates `disconnectTime`. -/
def tripSection (v : VehicleM) (env : RefreshEnv) (disc0 : ℚ) :
    List ChargePlan × ℚ :=
  match v.scheduled_trip with
  | none => ([], disc0)
  | some trip =>
    if qadd trip.time 3600000 < env.now then ([], disc0)
    else if qsub trip.time (qmul 36 3600000) < env.now then
      let departLevel := trip.level
      let prepareLevel := jmaxI v.level (jminI departLevel v.maximum_charge)
      let topupTime :=
        if prepareLevel < departLevel then
          chargeDuration env.curve prepareLevel departLevel
        else 0
      let topupStart := qsub (qsub trip.time 900000) topupTime
      let p := generateChargePlan env.curve env.prices v.level prepareLevel
        ChargeType.trip "upcoming trip" env.now topupStart none
      let p2 :=
        if 0 < topupTime then
          [{ chargeStart := some topupStart, chargeStop := none,
             level := departLevel, chargeType := ChargeType.trip,
             comment := "topping up before trip" }]
        else []
      (p ++ p2, jmax disc0 topupStart)
    else ([], disc0)

/-- The low-price fill section: when stats exist, plan to `maximum_charge`
capped by the threshold price derived from the weekly averages. -/
def fillSection (v : VehicleM) (env : RefreshEnv) (disc : ℚ) :
    List ChargePlan :=
  match env.stats with
  | none => []
  | some s =>
    let averagePrice :=
      qadd s.weekly_avg7_price
        (qdiv (qsub s.weekly_avg7_price s.weekly_avg21_price) 2)
    let thresholdPrice := qdiv (qmul averagePrice s.threshold) 100
    generateChargePlan env.curve env.prices v.level v.maximum_charge
      ChargeType.fill "low price" env.now disc (some thresholdPrice)

/-- `refreshVehicleChargePlan`: `none` when the location is unknown (early
return, plan untouched); otherwise `some` of the stored `charge_plan` value
(NULL when the final plan is empty).  Seed, calibration override or
(emergency, routine/learning, trip, fill) sections, then `cleanupPlan`. -/
def refreshVehicleChargePlan (v : VehicleM) (env : RefreshEnv) :
    Option (Option (List ChargePlan)) :=
  if v.locationKnown = false then none
  else
    let plan :=
      if calibCond v env then [calibrationSeg]
      else
        let p1 := planAfterEmergency v env (seedPlan v)
        let r2 := routineSection v env
        let r3 := tripSection v env r2.2
        let p4 := fillSection v env r3.2
        p1 ++ r2.1 ++ r3.1 ++ p4
    let plan2 := if plan = [] then plan else cleanupPlan plan
    some (if plan2 = [] then none else some plan2)

/-- C8: with the vehicle below `maximum_charge` and no charge-curve row
reaching level 100 (`MAX(level)` under 100 or NULL), the refreshed plan is
exactly the single calibration segment
`{null, null, 100, calibrate, "Charge calibration"}`; every other section
is skipped. -/
theorem claim_C8_calibration (v : VehicleM) (env : RefreshEnv)
    (hloc : v.locationKnown = true)
    (hlvl : v.level < v.maximum_charge)
    (hcurve : env.maxLevel.getD 0 < 100) :
    refreshVehicleChargePlan v env = some (some [calibrationSeg]) := by
  have hcal : calibCond v env = true := by simp [calibCond, hlvl, hcurve]
  have hclean : cleanupPlan [calibrationSeg] = [calibrationSeg] := by decide
  simp [refreshVehicleChargePlan, hloc, hcal, hclean]

def c8v : VehicleM :=
  { locationKnown := true, charge_plan := none, level := 80,
    minimum_charge := 50, maximum_charge := 90, anxiety_level := 0,
    scheduled_trip := none }

def c8env : RefreshEnv :=
  { maxLevel := none, stats := none, curve := fun _ => none,
    guessCharge := none, guessBefore := none, prices := [], now := 0 }

/-- Witness for C8: level 80 of maximum 90, no charge-curve rows at all. -/
theorem claim_C8_witness :
    (c8v.locationKnown = true ∧ c8v.level < c8v.maximum_charge
        ∧ c8env.maxLevel.getD 0 < 100)
      ∧ refreshVehicleChargePlan c8v c8env = some (some [calibrationSeg]) :=
  ⟨⟨by decide, by decide, by decide⟩,
    claim_C8_calibration c8v c8env (by decide) (by decide) (by decide)⟩

def c5seed : ChargePlan :=
  { chargeStart := none, chargeStop := some 999, level := 40,
    chargeType := ChargeType.minimum, comment := "old emergency" }

def c5v : VehicleM :=
  { locationKnown := true, charge_plan := some [c5seed], level := 40,
    minimum_charge := 50, maximum_charge := 90, anxiety_level := 0,
    scheduled_trip := none }

def c5env : RefreshEnv :=
  { maxLevel := some 100, stats := none, curve := fun _ => none,
    guessCharge := none, guessBefore := none, prices := [], now := 0 }

/-- C5 counterexample: the vehicle's stored plan has an in-progress segment
that survives the seeding filter, but the emergency branch REPLACES the
accumulated plan (`plan = [ {...} ]`) instead of appending, so the seeded
segment is gone right after the branch and absent from the stored result. -/
theorem claim_C5_counterexample :
    seedPlan c5v = [c5seed]
      ∧ planAfterEmergency c5v c5env (seedPlan c5v) = [emergencySeg c5v c5env]
      ∧ emergencySeg c5v c5env ≠ c5seed
      ∧ refreshVehicleChargePlan c5v c5env
          = some (some [{ chargeStart := none, chargeStop := none,
                          level := 90, chargeType := ChargeType.fill,
                          comment := "learning" }]) := by
  decide

/-- C5 (amended): below `minimum_charge` (and outside the calibration
override) the emergency branch discards whatever was seeded and continues
from exactly the single emergency segment
`{null, now + chargeDuration(level → minimum_charge), minimum_charge,
minimum, "emergency charge"}`; consequently the refresh result does not
depend on the vehicle's previous `charge_plan` at all. -/
theorem claim_C5_emergency (v : VehicleM) (env : RefreshEnv)
    (cp : Option (List ChargePlan))
    (hloc : v.locationKnown = true)
    (hcal : calibCond v env = false)
    (hlvl : v.level < v.minimum_charge) :
    planAfterEmergency v env (seedPlan v) = [emergencySeg v env]
      ∧ refreshVehicleChargePlan v env
          = refreshVehicleChargePlan { v with charge_plan := cp } env := by
  refine ⟨by simp [planAfterEmergency, hlvl], ?_⟩
  obtain ⟨l, cp0, lev, minc, maxc, anx, trip⟩ := v
  dsimp only at hloc hcal hlvl ⊢
  subst hloc
  have hcal2 : calibCond ⟨true, cp, lev, minc, maxc, anx, trip⟩ env = false :=
    hcal
  have hE : emergencySeg ⟨true, cp, lev, minc, maxc, anx, trip⟩ env
      = emergencySeg ⟨true, cp0, lev, minc, maxc, anx, trip⟩ env := rfl
  have hR : routineSection ⟨true, cp, lev, minc, maxc, anx, trip⟩ env
      = routineSection ⟨true, cp0, lev, minc, maxc, anx, trip⟩ env := rfl
  have hT : ∀ d, tripSection ⟨true, cp, lev, minc, maxc, anx, trip⟩ env d
      = tripSection ⟨true, cp0, lev, minc, maxc, anx, trip⟩ env d := fun _ => rfl
  have hF : ∀ d, fillSection ⟨true, cp, lev, minc, maxc, anx, trip⟩ env d
      = fillSection ⟨true, cp0, lev, minc, maxc, anx, trip⟩ env d := fun _ => rfl
  simp only [refreshVehicleChargePlan, planAfterEmergency, hlvl, hcal, hcal2,
    hE, hR, hT, hF]
  simp

def c5wv : VehicleM :=
  { locationKnown := true, charge_plan := none, level := 40,
    minimum_charge := 50, maximum_charge := 90, anxiety_level := 0,
    scheduled_trip := none }

/-- Witness for C5 (amended): the same emergency vehicle with its stored
plan swapped for the seeded segment's list. -/
theorem claim_C5_witness :
    (c5wv.locationKnown = true ∧ calibCond c5wv c5env = false
        ∧ c5wv.level < c5wv.minimum_charge)
      ∧ (planAfterEmergency c5wv c5env (seedPlan c5wv)
            = [emergencySeg c5wv c5env]
          ∧ refreshVehicleChargePlan c5wv c5env
              = refreshVehicleChargePlan
                  { c5wv with charge_plan := some [c5seed] } c5env) :=
  ⟨⟨by decide, by decide, by decide⟩,
    claim_C5_emergency c5wv c5env (some [c5seed])
      (by decide) (by decide) (by decide)⟩

end Smartcharge
